import Mathlib

/-!
Verification of the checked right-shift operator (`shr_checked`) and the scalar
greater-than comparator of the snarkVM circuit layer, together with their static
cost-prediction (`Metrics::count`) and output-mode (`OutputMode::output_mode`)
oracles.

The embedding follows `circuits/types/integers/src/shr_checked.rs` and
`circuits/types/scalar/src/greater_than.rs`.  Collaborator code that is not part
of the excerpt (the Boolean OR combinator, fresh integer allocation, the
environment's equality assertion, the wrapped shift delegate, and the scalar
less-than comparator) is modelled from the specification and marked as such in
the corresponding doc comments.

Machine integers are represented by their bit patterns as `Nat`, with the width
carried explicitly; signed values are read through a two's-complement
interpretation into `Int`.
-/

/-- Visibility mode of a circuit value: `Constant` (known at build time),
`Public` (known to the verifier) or `Private` (known only to the prover). -/
inductive Mode where
  | Constant : Mode
  | Public : Mode
  | Private : Mode
deriving DecidableEq

/-- Exact resource count: numbers of constant, public and private variable
allocations, and of constraints, recorded or predicted for an operation.
Mirrors `Count::is(a, b, c, d)` with the four components as point values. -/
structure Count where
  constants : Nat
  publics : Nat
  privates : Nat
  constraints : Nat
deriving DecidableEq

instance : Add Count :=
  ⟨fun x y => ⟨x.constants + y.constants, x.publics + y.publics,
    x.privates + y.privates, x.constraints + y.constraints⟩⟩

/-- The zero resource count `Count::is(0, 0, 0, 0)`. -/
def Count.zero : Count := ⟨0, 0, 0, 0⟩

theorem Count.add_mk (a b c d e f g h : Nat) :
    (Count.mk a b c d + Count.mk e f g h) = Count.mk (a + e) (b + f) (c + g) (d + h) := rfl

theorem Count.add_zero (x : Count) : x + Count.zero = x := by
  cases x; simp [Count.zero, Count.add_mk]

theorem Count.zero_add (x : Count) : Count.zero + x = x := by
  cases x; simp [Count.zero, Count.add_mk]

/-- A circuit Boolean: one constrained bit carrying a visibility mode and its
(ejected) witness value. -/
structure CBool where
  mode : Mode
  val : Bool
deriving DecidableEq

/-- Whether a circuit Boolean is a build-time constant (`Boolean::is_constant`). -/
def CBool.is_constant (b : CBool) : Bool := b.mode == Mode.Constant

/-- A circuit integer of some fixed width: its visibility mode and its ejected
value, stored as the underlying bit pattern (a `Nat` below `2 ^ width`).
The width and signedness are carried by the operations, not the value. -/
structure CInt where
  mode : Mode
  val : Nat
deriving DecidableEq

/-- Whether a circuit integer is a build-time constant (`Integer::is_constant`,
which holds exactly when every bit of the integer is constant; for integers
freshly allocated with a mode, that is the mode being `Constant`). -/
def CInt.is_constant (x : CInt) : Bool := x.mode == Mode.Constant

/-- The little-endian bit decomposition `bits_le` of a circuit integer of width
`w`: bit `i` is the `i`-th binary digit of the value, and every bit carries the
integer's mode. -/
def bitsLe (w : Nat) (x : CInt) : List CBool :=
  (List.range w).map fun i => ⟨x.mode, x.val.testBit i⟩

/-- Fuelled scan for the least set bit of its second argument. -/
def trailingZerosGo : Nat → Nat → Nat
  | 0, _ => 64
  | fuel + 1, m => if m % 2 = 1 then 0 else trailingZerosGo fuel (m / 2) + 1

/-- Number of trailing zero bits, as `u64::trailing_zeros` (the argument `0`
returns the bit width 64; the fuel of 64 iterations covers every `u64`). -/
def trailingZeros (n : Nat) : Nat :=
  if n = 0 then 64 else trailingZerosGo 64 n

/-- Two's-complement reading of a bit pattern `n < 2 ^ w` as a signed integer. -/
def toSigned (w : Nat) (n : Nat) : Int :=
  if n < 2 ^ (w - 1) then (n : Int) else (n : Int) - 2 ^ w

/-- The value of a right shift by `k` of the bit pattern `n` at width `w`:
logical shift for unsigned values, arithmetic (sign-extending, i.e. flooring)
shift for signed values, with the result re-encoded as a bit pattern. -/
def shrVal (w : Nat) (signed : Bool) (n k : Nat) : Nat :=
  if signed then (Int.fdiv (toSigned w n) (2 ^ k) % (2 ^ w : Int)).toNat
  else n / 2 ^ k

/-- The native checked shift-right oracle (`i*/u*::checked_shr`): `none` exactly
when the shift amount is at least the bit width, otherwise the shifted value. -/
def checked_shr (w : Nat) (signed : Bool) (n k : Nat) : Option Nat :=
  if k < w then some (shrVal w signed n k) else none

/-- The `ToPrimitive::to_u32` conversion of a magnitude value: succeeds exactly
when the value fits in 32 bits. -/
def to_u32 (n : Nat) : Option Nat :=
  if n < 2 ^ 32 then some n else none

/-- Modelled from the spec: the Boolean OR constraint-combinator (`a | b`),
an external collaborator of the excerpt.  Constants fold for free; an OR with
the constant `false` returns the other operand unchanged and an OR with the
constant `true` returns the constant `true`, at no cost; an OR of two
non-constant bits allocates one private witness bit and one constraint and
produces a `Private` result.  The second component is the recorded cost. -/
def cOr (a b : CBool) : CBool × Count :=
  match a.mode, b.mode with
  | Mode.Constant, Mode.Constant => (⟨Mode.Constant, a.val || b.val⟩, Count.zero)
  | Mode.Constant, _ => if a.val then (⟨Mode.Constant, true⟩, Count.zero) else (b, Count.zero)
  | _, Mode.Constant => if b.val then (⟨Mode.Constant, true⟩, Count.zero) else (a, Count.zero)
  | _, _ => (⟨Mode.Private, a.val || b.val⟩, ⟨0, 0, 1, 1⟩)

/-- The OR-fold `iter().fold(Boolean::constant(false), |a, b| a | b)` over a
list of circuit bits, accumulating the recorded cost of the OR combinators. -/
def orFold (l : List CBool) : CBool × Count :=
  l.foldl (fun acc b => ((cOr acc.1 b).1, acc.2 + (cOr acc.1 b).2))
    (⟨Mode.Constant, false⟩, Count.zero)

/-- The validity Boolean `upper_bits_are_nonzero` of `shr_checked`: the OR-fold
of the shift amount's bits at indices at least `trailing_zeros(I::BITS)`. -/
def upperBitsOr (w mw : Nat) (rhs : CInt) : CBool :=
  (orFold ((bitsLe mw rhs).drop (trailingZeros w))).1

/-- Modelled from the spec: the output mode of the wrapped shift delegate
`shr_wrapped`, an external collaborator — a Constant right operand degenerates
to the left operand's mode, while any non-Constant right operand forces a
Private output. -/
def shrWrappedMode : Mode → Mode → Mode
  | ma, Mode.Constant => ma
  | _, _ => Mode.Private

/-- Modelled from the spec: the wrapped shift delegate `shr_wrapped`, an
external collaborator — total modular arithmetic that masks the shift amount to
the bit width (`rhs mod w`) and never fails. -/
def shr_wrapped (w : Nat) (signed : Bool) (a rhs : CInt) : CInt :=
  ⟨shrWrappedMode a.mode rhs.mode, shrVal w signed a.val (rhs.val % w)⟩

/-- Modelled from the spec: fresh allocation `Integer::new(mode, value)` of a
width-`w` integer, an external collaborator — it allocates one bit per position,
each of the given mode, recording `w` allocations in that mode's component. -/
def newInt (m : Mode) (w : Nat) (v : Nat) : CInt × Count :=
  (⟨m, v⟩,
    match m with
    | Mode.Constant => ⟨w, 0, 0, 0⟩
    | Mode.Public => ⟨0, w, 0, 0⟩
    | Mode.Private => ⟨0, 0, w, 0⟩)

/-- The checked shift-right `shr_checked` of a width-`w` integer (signedness
`signed`) by a width-`mw` magnitude, instrumented with the resources it records
in the ambient context.  A successful build returns the result together with
the recorded `Count` delta and a flag telling whether the emitted constraints
are satisfied by the current witness (`E::assert_eq` of a non-constant Boolean
against zero is satisfied exactly when the Boolean's value is `false`; an
assertion between constants records no constraint).  `E::halt` is the `error`
case, carrying the halt message. -/
def shr_checked (wc : Mode → Mode → Count) (w : Nat) (signed : Bool) (mw : Nat)
    (a rhs : CInt) : Except String (CInt × Count × Bool) :=
  if a.is_constant && rhs.is_constant then
    match to_u32 rhs.val with
    | none => .error "panic: magnitude value does not fit in a u32"
    | some k =>
      match checked_shr w signed a.val k with
      | some value => .ok ((newInt Mode.Constant w value).1, (newInt Mode.Constant w value).2, true)
      | none => .error "Constant shifted by constant exceeds the allowed bitwidth."
  else
    let first_upper_bit_index := trailingZeros w
    let folded := orFold ((bitsLe mw rhs).drop first_upper_bit_index)
    if folded.1.is_constant && folded.1.val then
      .error "Integer shifted by constant exceeds the allowed bitwidth."
    else
      let assertCost : Count := if folded.1.is_constant then Count.zero else ⟨0, 0, 0, 1⟩
      .ok (shr_wrapped w signed a rhs, folded.2 + assertCost + wc a.mode rhs.mode, !folded.1.val)

/-- The width-indexing closure of `Metrics::count`: the position of `num_bits`
in `[8, 16, 32, 64, 128]`, `none` for an unsupported width. -/
def countIndex (numBits : Nat) : Option Nat :=
  [8, 16, 32, 64, 128].findIdx? fun bits => bits == numBits

/-- The `Metrics::count` prediction for checked shift-right: `(I::BITS, 0, 0, 0)` for
Constant/Constant, zero for a Constant right operand, and otherwise the wrapped
shift's count (`wc`) plus the per-width validity-check overhead; the width
lookup halts (`error`) on an unsupported width. -/
def shr_checked_count (wc : Mode → Mode → Count) (w mw : Nat) :
    Mode × Mode → Except String Count
  | (Mode.Constant, Mode.Constant) => .ok ⟨w, 0, 0, 0⟩
  | (_, Mode.Constant) => .ok ⟨0, 0, 0, 0⟩
  | (ma, mb) =>
    match countIndex w with
    | some i => .ok (wc ma mb + ⟨0, 0, mw - 4 - i, mw - 3 - i⟩)
    | none => .error ("Integer of " ++ toString w ++ " bits is not supported")

/-- The `OutputMode::output_mode` prediction for checked shift-right. -/
def shr_checked_output_mode : Mode × Mode → Mode
  | (Mode.Constant, Mode.Constant) => Mode.Constant
  | (ma, Mode.Constant) => ma
  | (_, _) => Mode.Private

/-- The supported integer bit widths. -/
def supportedIntegerBits : List Nat := [8, 16, 32, 64, 128]

/-- The supported magnitude bit widths (`u8`, `u16`, `u32`). -/
def supportedMagnitudeBits : List Nat := [8, 16, 32]

/-- A scalar circuit value: a field-scalar-backed value with a visibility mode
(the scalar field element is abstracted as a natural number). -/
structure Scalar where
  mode : Mode
  value : Nat
deriving DecidableEq

/-- The `CircuitType` of a value, as used by the scalar comparators' `Case`:
a constant with its known value, or the bare `Public`/`Private` tag. -/
inductive CircuitType (α : Type) where
  | constant (x : α) : CircuitType α
  | public : CircuitType α
  | privateTag : CircuitType α

/-- The comparator `Scalar::is_greater_than`, defined strictly by delegation to the canonical
comparator with the operand order swapped: `self.is_greater_than(other)` is
`other.is_less_than(self)`.  The canonical comparator `is_less_than` is not
part of the excerpt and is taken as a parameter. -/
def is_greater_than {S B : Type} (is_less_than : S → S → B) (self other : S) : B :=
  is_less_than other self

/-- The `Metadata::count` prediction for `GreaterThan`: the `LessThan` count at the swapped
case `(right, left)`. -/
def greaterThanCount {C : Type} (lessThanCount : C × C → Count) (c : C × C) : Count :=
  lessThanCount (c.2, c.1)

/-- The `Metadata::output_type` prediction for `GreaterThan`: the `LessThan` output type at
the swapped case `(right, left)`. -/
def greaterThanOutputType {C O : Type} (lessThanOutputType : C × C → O) (c : C × C) : O :=
  lessThanOutputType (c.2, c.1)

instance {E A : Type} [DecidableEq E] [DecidableEq A] : DecidableEq (Except E A) := fun x y =>
  match x, y with
  | .ok a, .ok b =>
    if h : a = b then Decidable.isTrue (by rw [h])
    else Decidable.isFalse (by intro he; cases he; exact h rfl)
  | .error a, .error b =>
    if h : a = b then Decidable.isTrue (by rw [h])
    else Decidable.isFalse (by intro he; cases he; exact h rfl)
  | .ok _, .error _ => Decidable.isFalse (by intro he; cases he)
  | .error _, .ok _ => Decidable.isFalse (by intro he; cases he)

theorem cOr_val (a b : CBool) : (cOr a b).1.val = (a.val || b.val) := by
  rcases a with ⟨am, av⟩; rcases b with ⟨bm, bv⟩
  cases am <;> cases bm <;> cases av <;> cases bv <;> rfl

theorem orFold_foldl_val (l : List CBool) : ∀ (acc : CBool) (c : Count),
    ((l.foldl (fun acc b => ((cOr acc.1 b).1, acc.2 + (cOr acc.1 b).2)) (acc, c)).1.val
      = l.foldl (fun x b => x || b.val) acc.val) := by
  induction l with
  | nil => intro acc c; rfl
  | cons b l ih =>
    intro acc c
    simp only [List.foldl_cons]
    rw [ih]
    rw [cOr_val]

theorem orFold_val (l : List CBool) :
    (orFold l).1.val = l.foldl (fun x b => x || b.val) false :=
  orFold_foldl_val l ⟨Mode.Constant, false⟩ Count.zero

theorem orFold_foldl_const (l : List CBool) (h : ∀ b ∈ l, b.mode = Mode.Constant) :
    ∀ (acc : CBool) (c : Count), acc.mode = Mode.Constant →
    ((l.foldl (fun acc b => ((cOr acc.1 b).1, acc.2 + (cOr acc.1 b).2)) (acc, c)).1.mode
        = Mode.Constant
      ∧ (l.foldl (fun acc b => ((cOr acc.1 b).1, acc.2 + (cOr acc.1 b).2)) (acc, c)).2 = c) := by
  induction l with
  | nil => intro acc c hacc; exact ⟨hacc, rfl⟩
  | cons b l ih =>
    intro acc c hacc
    have hb : b.mode = Mode.Constant := h b (List.mem_cons_self _ _)
    rcases acc with ⟨am, av⟩
    rcases b with ⟨bm, bv⟩
    cases hacc; cases hb
    simp only [List.foldl_cons]
    have hstep : cOr ⟨Mode.Constant, av⟩ ⟨Mode.Constant, bv⟩ =
        (⟨Mode.Constant, av || bv⟩, Count.zero) := rfl
    rw [hstep]
    simp only [Count.add_zero]
    exact ih (fun x hx => h x (List.mem_cons_of_mem _ hx)) ⟨Mode.Constant, av || bv⟩ c rfl

theorem orFold_const (l : List CBool) (h : ∀ b ∈ l, b.mode = Mode.Constant) :
    (orFold l).1.mode = Mode.Constant ∧ (orFold l).2 = Count.zero :=
  orFold_foldl_const l h ⟨Mode.Constant, false⟩ Count.zero rfl

theorem orFold_foldl_nonconst (l : List CBool) (h : ∀ b ∈ l, b.mode ≠ Mode.Constant) :
    ∀ (acc : CBool) (c : Count), acc.mode ≠ Mode.Constant →
    ((l.foldl (fun acc b => ((cOr acc.1 b).1, acc.2 + (cOr acc.1 b).2)) (acc, c)).1.mode
        ≠ Mode.Constant
      ∧ (l.foldl (fun acc b => ((cOr acc.1 b).1, acc.2 + (cOr acc.1 b).2)) (acc, c)).2
        = c + ⟨0, 0, l.length, l.length⟩) := by
  induction l with
  | nil =>
    intro acc c hacc
    refine ⟨hacc, ?_⟩
    rcases c with ⟨c1, c2, c3, c4⟩
    simp [Count.add_mk]
  | cons b l ih =>
    intro acc c hacc
    have hb : b.mode ≠ Mode.Constant := h b (List.mem_cons_self _ _)
    rcases acc with ⟨am, av⟩
    rcases b with ⟨bm, bv⟩
    simp only [List.foldl_cons]
    have hstep : cOr ⟨am, av⟩ ⟨bm, bv⟩ = (⟨Mode.Private, av || bv⟩, ⟨0, 0, 1, 1⟩) := by
      cases am <;> cases bm <;> simp_all [cOr]
    rw [hstep]
    have hrest := ih (fun x hx => h x (List.mem_cons_of_mem _ hx))
      ⟨Mode.Private, av || bv⟩ (c + ⟨0, 0, 1, 1⟩) (by intro hcon; cases hcon)
    refine ⟨hrest.1, ?_⟩
    rw [hrest.2]
    rcases c with ⟨c1, c2, c3, c4⟩
    simp [Count.add_mk, List.length_cons, Count.mk.injEq]
    omega

theorem orFold_nonconst (l : List CBool) (h : ∀ b ∈ l, b.mode ≠ Mode.Constant) (hne : l ≠ []) :
    (orFold l).1.mode ≠ Mode.Constant ∧ (orFold l).2 = ⟨0, 0, l.length - 1, l.length - 1⟩ := by
  cases l with
  | nil => exact absurd rfl hne
  | cons b rest =>
    have hb : b.mode ≠ Mode.Constant := h b (List.mem_cons_self _ _)
    rcases b with ⟨bm, bv⟩
    have hstep : cOr ⟨Mode.Constant, false⟩ ⟨bm, bv⟩ = (⟨bm, bv⟩, Count.zero) := by
      cases bm <;> simp_all [cOr]
    unfold orFold
    simp only [List.foldl_cons, hstep]
    have := orFold_foldl_nonconst rest (fun x hx => h x (List.mem_cons_of_mem _ hx))
      ⟨bm, bv⟩ (Count.zero + Count.zero) hb
    refine ⟨this.1, ?_⟩
    rw [this.2]
    simp [Count.zero, Count.add_mk, List.length_cons]

theorem range'_drop (m : Nat) : ∀ (s n : Nat),
    (List.range' s n).drop m = List.range' (s + m) (n - m) := by
  induction m with
  | zero => intro s n; simp
  | succ m ih =>
    intro s n
    cases n with
    | zero => simp
    | succ n =>
      rw [List.range'_succ]
      simp only [List.drop_succ_cons]
      rw [ih (s + 1) n]
      have harith : s + 1 + m = s + (m + 1) := by omega
      rw [harith, Nat.succ_sub_succ]

theorem bitsLe_drop (t mw : Nat) (x : CInt) :
    (bitsLe mw x).drop t = (List.range' t (mw - t)).map fun i => ⟨x.mode, x.val.testBit i⟩ := by
  unfold bitsLe
  rw [← List.map_drop, List.range_eq_range', range'_drop t 0 mw]
  simp

theorem bitsLe_mode (t mw : Nat) (x : CInt) :
    ∀ b ∈ (bitsLe mw x).drop t, b.mode = x.mode := by
  intro b hb
  have hmem := List.mem_of_mem_drop hb
  simp only [bitsLe, List.mem_map, List.mem_range] at hmem
  obtain ⟨i, _, rfl⟩ := hmem
  rfl

theorem bitsLe_drop_length (t mw : Nat) (x : CInt) :
    ((bitsLe mw x).drop t).length = mw - t := by
  simp [bitsLe]

theorem foldl_or_eq_any (g : Nat → Bool) (l : List Nat) : ∀ acc : Bool,
    l.foldl (fun x i => x || g i) acc = (acc || l.any g) := by
  induction l with
  | nil => intro acc; simp
  | cons a l ih =>
    intro acc
    simp only [List.foldl_cons, List.any_cons]
    rw [ih (acc || g a), Bool.or_assoc]

theorem testBit_true_implies_ge (k s : Nat) (h : k.testBit s = true) : 2 ^ s ≤ k := by
  rw [Nat.testBit_to_div_mod, decide_eq_true_eq] at h
  have h2 : 0 < 2 ^ s := Nat.pos_pow_of_pos s (by omega)
  have : 1 ≤ k / 2 ^ s := by
    rcases Nat.eq_zero_or_pos (k / 2 ^ s) with h0 | h1
    · rw [h0] at h; simp at h
    · exact h1
  calc 2 ^ s = 1 * 2 ^ s := (Nat.one_mul _).symm
    _ ≤ k := (Nat.le_div_iff_mul_le h2).mp this

theorem testBit_true_of_between (k s : Nat) (hlo : 2 ^ s ≤ k) (hhi : k < 2 ^ (s + 1)) :
    k.testBit s = true := by
  rw [Nat.testBit_to_div_mod, decide_eq_true_eq]
  have h2 : 0 < 2 ^ s := Nat.pos_pow_of_pos s (by omega)
  have hq1 : 1 ≤ k / 2 ^ s := by
    rw [Nat.le_div_iff_mul_le h2, Nat.one_mul]; exact hlo
  have hq2 : k / 2 ^ s < 2 := by
    rw [Nat.div_lt_iff_lt_mul h2]
    rw [pow_succ] at hhi
    omega
  omega

theorem any_testBit_range' (k : Nat) (n : Nat) : ∀ (s : Nat), k < 2 ^ (s + n) →
    ((List.range' s n).any k.testBit = true ↔ 2 ^ s ≤ k) := by
  induction n with
  | zero =>
    intro s h
    rw [List.range'_zero]
    simp only [List.any_nil, Bool.false_eq_true, false_iff, not_le]
    simpa using h
  | succ n ih =>
    intro s h
    rw [List.range'_succ]
    simp only [List.any_cons, Bool.or_eq_true]
    have hbound : k < 2 ^ (s + 1 + n) := by
      have : s + 1 + n = s + (n + 1) := by omega
      rw [this]; exact h
    rw [ih (s + 1) hbound]
    constructor
    · rintro (hbit | hge)
      · exact testBit_true_implies_ge k s hbit
      · exact le_trans (Nat.pow_le_pow_right (by omega) (by omega)) hge
    · intro hge
      by_cases hk : 2 ^ (s + 1) ≤ k
      · exact Or.inr hk
      · exact Or.inl (testBit_true_of_between k s hge (by omega))

theorem upperBitsOr_val (w mw : Nat) (mb : Mode) (k : Nat) (ht : trailingZeros w ≤ mw)
    (hk : k < 2 ^ mw) :
    ((upperBitsOr w mw ⟨mb, k⟩).val = true ↔ 2 ^ trailingZeros w ≤ k) := by
  unfold upperBitsOr
  rw [orFold_val, bitsLe_drop]
  rw [List.foldl_map]
  have : ((List.range' (trailingZeros w) (mw - trailingZeros w)).foldl
      (fun x i => x || (⟨mb, k.testBit i⟩ : CBool).val) false)
      = (List.range' (trailingZeros w) (mw - trailingZeros w)).foldl
        (fun x i => x || k.testBit i) false := rfl
  rw [this, foldl_or_eq_any, Bool.false_or]
  exact any_testBit_range' k (mw - trailingZeros w) (trailingZeros w) (by
    have : trailingZeros w + (mw - trailingZeros w) = mw := by omega
    rw [this]; exact hk)

theorem upperBitsOr_const (w mw : Nat) (k : Nat) :
    (upperBitsOr w mw ⟨Mode.Constant, k⟩).mode = Mode.Constant ∧
    (orFold ((bitsLe mw ⟨Mode.Constant, k⟩).drop (trailingZeros w))).2 = Count.zero :=
  orFold_const _ (bitsLe_mode (trailingZeros w) mw ⟨Mode.Constant, k⟩)

theorem upperBitsOr_nonconst (w mw : Nat) (mb : Mode) (k : Nat)
    (hmb : mb ≠ Mode.Constant) (ht : trailingZeros w < mw) :
    (upperBitsOr w mw ⟨mb, k⟩).mode ≠ Mode.Constant ∧
    (orFold ((bitsLe mw ⟨mb, k⟩).drop (trailingZeros w))).2 =
      ⟨0, 0, mw - trailingZeros w - 1, mw - trailingZeros w - 1⟩ := by
  have hlen := bitsLe_drop_length (trailingZeros w) mw ⟨mb, k⟩
  have hne : (bitsLe mw ⟨mb, k⟩).drop (trailingZeros w) ≠ [] := by
    intro hnil
    rw [hnil] at hlen
    simp at hlen
    omega
  have hmodes : ∀ b ∈ (bitsLe mw ⟨mb, k⟩).drop (trailingZeros w), b.mode ≠ Mode.Constant := by
    intro b hb
    rw [bitsLe_mode (trailingZeros w) mw ⟨mb, k⟩ b hb]
    exact hmb
  have := orFold_nonconst _ hmodes hne
  rw [hlen] at this
  exact this

theorem width_facts (w mw : Nat) (hw : w ∈ supportedIntegerBits)
    (hmw : mw ∈ supportedMagnitudeBits) :
    3 ≤ trailingZeros w ∧ trailingZeros w ≤ 7 ∧ trailingZeros w < mw ∧
    countIndex w = some (trailingZeros w - 3) ∧ 2 ^ trailingZeros w = w ∧ 8 ≤ w ∧
    mw ≤ 32 ∧ 8 ≤ mw := by
  simp only [supportedIntegerBits, supportedMagnitudeBits, List.mem_cons,
    List.not_mem_nil, or_false] at hw hmw
  rcases hw with rfl | rfl | rfl | rfl | rfl <;> rcases hmw with rfl | rfl | rfl <;> decide

theorem countIndex_eq_none (w : Nat) (h : w ∉ supportedIntegerBits) : countIndex w = none := by
  simp only [supportedIntegerBits, List.mem_cons, List.not_mem_nil, or_false, not_or] at h
  obtain ⟨h8, h16, h32, h64, h128⟩ := h
  simp [countIndex, List.findIdx?_cons, List.findIdx?_nil, beq_iff_eq,
    Ne.symm h8, Ne.symm h16, Ne.symm h32, Ne.symm h64, Ne.symm h128]

theorem to_u32_of_lt (k mw : Nat) (hmw : mw ≤ 32) (hk : k < 2 ^ mw) : to_u32 k = some k := by
  unfold to_u32
  rw [if_pos]
  exact lt_of_lt_of_le hk (Nat.pow_le_pow_right (by omega) hmw)

theorem shr_checked_cc (wc : Mode → Mode → Count) (w : Nat) (signed : Bool) (mw : Nat)
    (av k : Nat) (hk32 : k < 2 ^ 32) :
    shr_checked wc w signed mw ⟨Mode.Constant, av⟩ ⟨Mode.Constant, k⟩ =
      match checked_shr w signed av k with
      | some v => .ok (⟨Mode.Constant, v⟩, ⟨w, 0, 0, 0⟩, true)
      | none => .error "Constant shifted by constant exceeds the allowed bitwidth." := by
  unfold shr_checked
  have hcond : (CInt.is_constant ⟨Mode.Constant, av⟩ && CInt.is_constant ⟨Mode.Constant, k⟩)
      = true := rfl
  rw [hcond]
  have hu : to_u32 k = some k := by unfold to_u32; rw [if_pos hk32]
  simp only [if_true, hu]
  cases hcs : checked_shr w signed av k <;> simp [hcs, newInt]

theorem shr_checked_nc (wc : Mode → Mode → Count) (w : Nat) (signed : Bool) (mw : Nat)
    (ma mb : Mode) (av k : Nat) (h : ¬(ma = Mode.Constant ∧ mb = Mode.Constant)) :
    shr_checked wc w signed mw ⟨ma, av⟩ ⟨mb, k⟩ =
      (if (upperBitsOr w mw ⟨mb, k⟩).is_constant && (upperBitsOr w mw ⟨mb, k⟩).val
       then .error "Integer shifted by constant exceeds the allowed bitwidth."
       else .ok (shr_wrapped w signed ⟨ma, av⟩ ⟨mb, k⟩,
         (orFold ((bitsLe mw ⟨mb, k⟩).drop (trailingZeros w))).2 +
           (if (upperBitsOr w mw ⟨mb, k⟩).is_constant then Count.zero else ⟨0, 0, 0, 1⟩) +
           wc ma mb, !(upperBitsOr w mw ⟨mb, k⟩).val)) := by
  unfold shr_checked
  have hcond : (CInt.is_constant ⟨ma, av⟩ && CInt.is_constant ⟨mb, k⟩) = false := by
    cases ma <;> cases mb <;> simp_all [CInt.is_constant]
  rw [hcond]
  simp only [Bool.false_eq_true, if_false]
  rfl

theorem bool_eq_decide {P : Prop} [Decidable P] (b : Bool) (h : b = true ↔ P) : b = decide P := by
  cases b
  · simp only [Bool.false_eq_true, false_iff] at h
    simp [h]
  · simp only [true_iff] at h
    simp [h]

theorem mem_magnitude_le_32 (mw : Nat) (hmw : mw ∈ supportedMagnitudeBits) : mw ≤ 32 := by
  simp only [supportedMagnitudeBits, List.mem_cons, List.not_mem_nil, or_false] at hmw
  rcases hmw with rfl | rfl | rfl <;> omega

/-- C1: with both operands Constant, `shr_checked` returns a Constant integer
equal to the native `checked_shr` oracle's result whenever the oracle succeeds,
and halts the build whenever the oracle signals failure, which happens exactly
when the shift amount is at least the bit width. -/
theorem shr_checked_constant_constant_matches_oracle
    (wc : Mode → Mode → Count) (w mw : Nat) (signed : Bool) (av k : Nat)
    (hmw : mw ∈ supportedMagnitudeBits) (hk : k < 2 ^ mw) :
    (∀ v, checked_shr w signed av k = some v →
      shr_checked wc w signed mw ⟨Mode.Constant, av⟩ ⟨Mode.Constant, k⟩ =
        .ok (⟨Mode.Constant, v⟩, ⟨w, 0, 0, 0⟩, true))
    ∧ (checked_shr w signed av k = none →
      shr_checked wc w signed mw ⟨Mode.Constant, av⟩ ⟨Mode.Constant, k⟩ =
        .error "Constant shifted by constant exceeds the allowed bitwidth.")
    ∧ (checked_shr w signed av k = none ↔ w ≤ k) := by
  have hk32 : k < 2 ^ 32 :=
    lt_of_lt_of_le hk (Nat.pow_le_pow_right (by omega) (mem_magnitude_le_32 mw hmw))
  have hcc := shr_checked_cc wc w signed mw av k hk32
  refine ⟨?_, ?_, ?_⟩
  · intro v hv; rw [hcc, hv]
  · intro hv; rw [hcc, hv]
  · unfold checked_shr
    by_cases hkw : k < w
    · rw [if_pos hkw]; simp; omega
    · rw [if_neg hkw]; simp; omega

/-- Witness for C1 at the spec's example: width 8, signed value -5 (two's
complement pattern 251), Constant shift amount 2; the oracle succeeds with -2
(pattern 254) and the build returns that Constant. -/
theorem shr_checked_constant_constant_matches_oracle_witness :
    (8 : Nat) ∈ supportedMagnitudeBits ∧ (2 : Nat) < 2 ^ 8 ∧
    checked_shr 8 true 251 2 = some 254 ∧
    shr_checked (fun _ _ => Count.zero) 8 true 8 ⟨Mode.Constant, 251⟩ ⟨Mode.Constant, 2⟩ =
      .ok (⟨Mode.Constant, 254⟩, ⟨8, 0, 0, 0⟩, true) :=
  ⟨by decide, by decide, by decide,
    (shr_checked_constant_constant_matches_oracle (fun _ _ => Count.zero) 8 8 true 251 2
      (by decide) (by decide)).1 254 (by decide)⟩

/-- C2: the validity Boolean is the OR-fold of the shift amount's bits at
indices at least `trailing_zeros(I::BITS)`; for every representable shift
amount its value is true exactly when the shift amount is at least the left
operand's bit width (false exactly when strictly below it), and the starting
index exists (is a valid bit index of the magnitude) because every supported
width is a power of two at least 8. -/
theorem upper_bits_validity (w mw : Nat) (mb : Mode) (k : Nat)
    (hw : w ∈ supportedIntegerBits) (hmw : mw ∈ supportedMagnitudeBits) (hk : k < 2 ^ mw) :
    ((upperBitsOr w mw ⟨mb, k⟩).val = true ↔ w ≤ k)
    ∧ ((upperBitsOr w mw ⟨mb, k⟩).val = false ↔ k < w)
    ∧ trailingZeros w < mw ∧ 2 ^ trailingZeros w = w ∧ 8 ≤ w := by
  obtain ⟨ht3, ht7, htmw, hidx, hpow, hw8, hmw32, hmw8⟩ := width_facts w mw hw hmw
  have hval := upperBitsOr_val w mw mb k (le_of_lt htmw) hk
  rw [hpow] at hval
  refine ⟨hval, ?_, htmw, hpow, hw8⟩
  have hneg : (upperBitsOr w mw ⟨mb, k⟩).val = false ↔ ¬ (w ≤ k) := by
    rw [Bool.eq_false_iff]
    exact not_congr hval
  exact hneg.trans Nat.not_le

/-- Witness for C2 at width 8, 8-bit magnitude with value 9 and Public mode:
the validity bit is true and 8 <= 9. -/
theorem upper_bits_validity_witness :
    (((upperBitsOr 8 8 ⟨Mode.Public, 9⟩).val = true ↔ 8 ≤ 9)
    ∧ ((upperBitsOr 8 8 ⟨Mode.Public, 9⟩).val = false ↔ 9 < 8)
    ∧ trailingZeros 8 < 8 ∧ 2 ^ trailingZeros 8 = 8 ∧ 8 ≤ 8) :=
  upper_bits_validity 8 8 Mode.Public 9 (by decide) (by decide) (by decide)

/-- C6: the output mode of checked shift-right is a function of the operand
modes alone: Constant for Constant/Constant, the left operand's mode when only
the right operand is Constant, and Private whenever the right operand is
non-Constant. -/
theorem output_mode_function_of_modes (ma mb : Mode) :
    shr_checked_output_mode (Mode.Constant, Mode.Constant) = Mode.Constant
    ∧ shr_checked_output_mode (ma, Mode.Constant) = ma
    ∧ (mb ≠ Mode.Constant → shr_checked_output_mode (ma, mb) = Mode.Private) := by
  refine ⟨rfl, ?_, ?_⟩
  · cases ma <;> rfl
  · intro hmb
    cases mb <;> cases ma <;> simp_all [shr_checked_output_mode]

/-- Witness for C6 at the Public/Private case. -/
theorem output_mode_function_of_modes_witness :
    shr_checked_output_mode (Mode.Public, Mode.Private) = Mode.Private :=
  (output_mode_function_of_modes Mode.Public Mode.Private).2.2 (by decide)

/-- C7: `is_greater_than` is exactly the canonical `is_less_than` with the
operands swapped, and the greater-than count and output-type predictions at
case `(left, right)` are the less-than predictions at `(right, left)`; no
independent comparison logic exists in the greater-than implementation. -/
theorem greater_than_delegates_to_less_than {B O : Type}
    (is_less_than : Scalar → Scalar → B)
    (lessThanCount : CircuitType Scalar × CircuitType Scalar → Count)
    (lessThanOutputType : CircuitType Scalar × CircuitType Scalar → O)
    (a b : Scalar) (left right : CircuitType Scalar) :
    is_greater_than is_less_than a b = is_less_than b a
    ∧ greaterThanCount lessThanCount (left, right) = lessThanCount (right, left)
    ∧ greaterThanOutputType lessThanOutputType (left, right) = lessThanOutputType (right, left) :=
  ⟨rfl, rfl, rfl⟩

/-- C9: for every supported pair of widths the partial operations inside
`shr_checked` are safe: the first upper bit index is at most 7, strictly below
the magnitude width, in bounds for the slice of the magnitude's bit vector, and
the `to_u32` conversion of any representable magnitude value succeeds. -/
theorem shr_checked_partial_ops_safe (w mw : Nat) (mb : Mode) (k : Nat)
    (hw : w ∈ supportedIntegerBits) (hmw : mw ∈ supportedMagnitudeBits) :
    trailingZeros w ≤ 7
    ∧ trailingZeros w < mw
    ∧ trailingZeros w ≤ (bitsLe mw ⟨mb, k⟩).length
    ∧ (k < 2 ^ mw → to_u32 k = some k) := by
  obtain ⟨ht3, ht7, htmw, hidx, hpow, hw8, hmw32, hmw8⟩ := width_facts w mw hw hmw
  have hlen : (bitsLe mw ⟨mb, k⟩).length = mw := by simp [bitsLe]
  exact ⟨ht7, htmw, by omega, fun hk => to_u32_of_lt k mw hmw32 hk⟩

/-- Witness for C9 at the extreme pair: 128-bit integer, 8-bit magnitude. -/
theorem shr_checked_partial_ops_safe_witness :
    trailingZeros 128 ≤ 7
    ∧ trailingZeros 128 < 8
    ∧ trailingZeros 128 ≤ (bitsLe 8 ⟨Mode.Private, 5⟩).length
    ∧ ((5 : Nat) < 2 ^ 8 → to_u32 5 = some 5) :=
  shr_checked_partial_ops_safe 128 8 Mode.Private 5 (by decide) (by decide)

/-- C10: the unsigned subtractions in the checked-shift count formula never
underflow: the width index is at most 4 and the magnitude width at least 8, so
`M::BITS - 4 - index` is well defined and `M::BITS - 3 - index` is at least 1. -/
theorem count_formula_no_underflow (w mw : Nat)
    (hw : w ∈ supportedIntegerBits) (hmw : mw ∈ supportedMagnitudeBits) :
    ∃ i, countIndex w = some i ∧ i ≤ 4 ∧ 8 ≤ mw ∧ 4 + i ≤ mw ∧ 1 ≤ mw - 3 - i := by
  obtain ⟨ht3, ht7, htmw, hidx, hpow, hw8, hmw32, hmw8⟩ := width_facts w mw hw hmw
  exact ⟨trailingZeros w - 3, hidx, by omega, hmw8, by omega, by omega⟩

/-- Witness for C10 at the tightest pair: 128-bit integer (index 4), 8-bit
magnitude. -/
theorem count_formula_no_underflow_witness :
    ∃ i, countIndex 128 = some i ∧ i ≤ 4 ∧ 8 ≤ 8 ∧ 4 + i ≤ 8 ∧ 1 ≤ 8 - 3 - i :=
  count_formula_no_underflow 128 8 (by decide) (by decide)

theorem shr_checked_rhs_const (wc : Mode → Mode → Count) (w mw : Nat) (signed : Bool)
    (ma : Mode) (av k : Nat) (hma : ma ≠ Mode.Constant)
    (hw : w ∈ supportedIntegerBits) (hmw : mw ∈ supportedMagnitudeBits) (hk : k < 2 ^ mw) :
    shr_checked wc w signed mw ⟨ma, av⟩ ⟨Mode.Constant, k⟩ =
      if w ≤ k then .error "Integer shifted by constant exceeds the allowed bitwidth."
      else .ok (shr_wrapped w signed ⟨ma, av⟩ ⟨Mode.Constant, k⟩,
        Count.zero + Count.zero + wc ma Mode.Constant, true) := by
  obtain ⟨ht3, ht7, htmw, hidx, hpow, hw8, hmw32, hmw8⟩ := width_facts w mw hw hmw
  rw [shr_checked_nc wc w signed mw ma Mode.Constant av k (fun hcon => hma hcon.1)]
  have hconst := upperBitsOr_const w mw k
  have hic : (upperBitsOr w mw ⟨Mode.Constant, k⟩).is_constant = true := by
    simp [CBool.is_constant, hconst.1]
  have hval : (upperBitsOr w mw ⟨Mode.Constant, k⟩).val = decide (w ≤ k) :=
    bool_eq_decide _ (by rw [upperBitsOr_val w mw Mode.Constant k (le_of_lt htmw) hk, hpow])
  rw [hic, hval, hconst.2]
  by_cases hwk : w ≤ k
  · simp [hwk]
  · simp only [hwk, decide_False, Bool.and_false, Bool.false_eq_true, if_false, if_true,
      Bool.not_false]

theorem shr_checked_rhs_nonconst (wc : Mode → Mode → Count) (w mw : Nat) (signed : Bool)
    (ma mb : Mode) (av k : Nat) (hmb : mb ≠ Mode.Constant)
    (hw : w ∈ supportedIntegerBits) (hmw : mw ∈ supportedMagnitudeBits) (hk : k < 2 ^ mw) :
    shr_checked wc w signed mw ⟨ma, av⟩ ⟨mb, k⟩ =
      .ok (shr_wrapped w signed ⟨ma, av⟩ ⟨mb, k⟩,
        (⟨0, 0, mw - trailingZeros w - 1, mw - trailingZeros w - 1⟩ : Count) + ⟨0, 0, 0, 1⟩ +
          wc ma mb,
        !decide (w ≤ k)) := by
  obtain ⟨ht3, ht7, htmw, hidx, hpow, hw8, hmw32, hmw8⟩ := width_facts w mw hw hmw
  rw [shr_checked_nc wc w signed mw ma mb av k (fun hcon => hmb hcon.2)]
  have hnc2 := upperBitsOr_nonconst w mw mb k hmb htmw
  have hicf : (upperBitsOr w mw ⟨mb, k⟩).is_constant = false := by
    simp only [CBool.is_constant, beq_eq_false_iff_ne, ne_eq]
    exact hnc2.1
  have hval : (upperBitsOr w mw ⟨mb, k⟩).val = decide (w ≤ k) :=
    bool_eq_decide _ (by rw [upperBitsOr_val w mw mb k (le_of_lt htmw) hk, hpow])
  rw [hicf, hval, hnc2.2]
  simp only [Bool.false_and, Bool.false_eq_true, if_false]

/-- C3: in the non-constant branch, if the validity Boolean is fully Constant
with value true the build halts immediately; otherwise the validity Boolean is
constrained to zero and the result is delegated to the wrapped shift, so a
non-Constant out-of-range shift yields the wrapped result together with an
unsatisfied (unsatisfiable) constraint set, never a silently accepted wrong
result. -/
theorem shr_checked_nonconstant_behaviour (wc : Mode → Mode → Count) (w mw : Nat)
    (signed : Bool) (ma mb : Mode) (av k : Nat)
    (hw : w ∈ supportedIntegerBits) (hmw : mw ∈ supportedMagnitudeBits) (hk : k < 2 ^ mw)
    (hnc : ¬(ma = Mode.Constant ∧ mb = Mode.Constant)) :
    ((upperBitsOr w mw ⟨mb, k⟩).mode = Mode.Constant → (upperBitsOr w mw ⟨mb, k⟩).val = true →
      shr_checked wc w signed mw ⟨ma, av⟩ ⟨mb, k⟩ =
        .error "Integer shifted by constant exceeds the allowed bitwidth.")
    ∧ (¬((upperBitsOr w mw ⟨mb, k⟩).mode = Mode.Constant ∧ (upperBitsOr w mw ⟨mb, k⟩).val = true) →
      ∃ cnt, shr_checked wc w signed mw ⟨ma, av⟩ ⟨mb, k⟩ =
        .ok (shr_wrapped w signed ⟨ma, av⟩ ⟨mb, k⟩, cnt, !(upperBitsOr w mw ⟨mb, k⟩).val))
    ∧ (mb ≠ Mode.Constant → w ≤ k →
      ∃ cnt, shr_checked wc w signed mw ⟨ma, av⟩ ⟨mb, k⟩ =
        .ok (shr_wrapped w signed ⟨ma, av⟩ ⟨mb, k⟩, cnt, false)) := by
  obtain ⟨ht3, ht7, htmw, hidx, hpow, hw8, hmw32, hmw8⟩ := width_facts w mw hw hmw
  have hbr := shr_checked_nc wc w signed mw ma mb av k hnc
  have hpart2 : ¬((upperBitsOr w mw ⟨mb, k⟩).mode = Mode.Constant
        ∧ (upperBitsOr w mw ⟨mb, k⟩).val = true) →
      ∃ cnt, shr_checked wc w signed mw ⟨ma, av⟩ ⟨mb, k⟩ =
        .ok (shr_wrapped w signed ⟨ma, av⟩ ⟨mb, k⟩, cnt, !(upperBitsOr w mw ⟨mb, k⟩).val) := by
    intro hnot
    have hcondf : ((upperBitsOr w mw ⟨mb, k⟩).is_constant && (upperBitsOr w mw ⟨mb, k⟩).val)
        = false := by
      cases hm : (upperBitsOr w mw ⟨mb, k⟩).mode <;>
        cases hv : (upperBitsOr w mw ⟨mb, k⟩).val <;>
        simp_all [CBool.is_constant]
    rw [hbr, hcondf]
    simp only [Bool.false_eq_true, if_false]
    exact ⟨_, rfl⟩
  refine ⟨?_, hpart2, ?_⟩
  · intro hmode hval
    have hic : (upperBitsOr w mw ⟨mb, k⟩).is_constant = true := by
      simp [CBool.is_constant, hmode]
    rw [hbr, hic, hval]
    rfl
  · intro hmb hwk
    have hval : (upperBitsOr w mw ⟨mb, k⟩).val = true := by
      rw [upperBitsOr_val w mw mb k (le_of_lt htmw) hk, hpow]
      exact hwk
    have hmode := (upperBitsOr_nonconst w mw mb k hmb htmw).1
    obtain ⟨cnt, hcnt⟩ := hpart2 (fun hcon => hmode hcon.1)
    rw [hval] at hcnt
    exact ⟨cnt, hcnt⟩

/-- Witness for C3: width 8, Public shift amount 9 (out of range): the build
succeeds but the recorded constraint set is unsatisfied, and the result is the
wrapped shift's. -/
theorem shr_checked_nonconstant_behaviour_witness :
    ∃ cnt, shr_checked (fun _ _ => Count.zero) 8 true 8 ⟨Mode.Constant, 0⟩ ⟨Mode.Public, 9⟩ =
      .ok (shr_wrapped 8 true ⟨Mode.Constant, 0⟩ ⟨Mode.Public, 9⟩, cnt, false) :=
  (shr_checked_nonconstant_behaviour (fun _ _ => Count.zero) 8 8 true Mode.Constant Mode.Public
    0 9 (by decide) (by decide) (by decide) (by decide)).2.2 (by decide) (by decide)

/-- C5: for every case with a non-Constant right operand the predicted count is
compositional: the wrapped count plus the fixed overhead
`(0, 0, M::BITS - 4 - index, M::BITS - 3 - index)`, where `index` maps the
widths 8, 16, 32, 64, 128 to positions 0 through 4 in order; any other width
makes the count halt loudly. -/
theorem checked_count_compositional (wc : Mode → Mode → Count) (mw : Nat) (ma mb : Mode)
    (hmb : mb ≠ Mode.Constant) :
    (countIndex 8 = some 0 ∧ countIndex 16 = some 1 ∧ countIndex 32 = some 2
      ∧ countIndex 64 = some 3 ∧ countIndex 128 = some 4)
    ∧ (∀ w i, countIndex w = some i →
        shr_checked_count wc w mw (ma, mb) = .ok (wc ma mb + ⟨0, 0, mw - 4 - i, mw - 3 - i⟩))
    ∧ (∀ w, w ∉ supportedIntegerBits →
        shr_checked_count wc w mw (ma, mb)
          = .error ("Integer of " ++ toString w ++ " bits is not supported")) := by
  refine ⟨by decide, ?_, ?_⟩
  · intro w i hidx
    cases mb <;> cases ma <;> simp_all [shr_checked_count]
  · intro w hnot
    have hnone := countIndex_eq_none w hnot
    cases mb <;> cases ma <;> simp_all [shr_checked_count]

/-- Witness for C5 at width 32, 16-bit magnitude, Public/Private case. -/
theorem checked_count_compositional_witness :
    shr_checked_count (fun _ _ => Count.zero) 32 16 (Mode.Public, Mode.Private) =
      .ok ((fun _ _ => Count.zero) Mode.Public Mode.Private + ⟨0, 0, 16 - 4 - 2, 16 - 3 - 2⟩) :=
  (checked_count_compositional (fun _ _ => Count.zero) 16 Mode.Public Mode.Private
    (by decide)).2.1 32 2 (by decide)

/-- C4: for every mode case, the statically predicted count equals the actually
recorded allocation/constraint delta of one real invocation of `shr_checked`
under that case, and the predicted output mode equals the mode of the actually
produced result; in particular the predicted count is `(I::BITS, 0, 0, 0)` for
the Constant/Constant case and `(0, 0, 0, 0)` for a Constant right operand with
a non-Constant left operand.  The wrapped delegate's count `wc` is a parameter;
the hypothesis that a shift by a Constant amount records nothing is part of the
spec model of the absent `shr_wrapped`. -/
theorem metrics_count_exact (wc : Mode → Mode → Count)
    (hwc : ∀ m, wc m Mode.Constant = Count.zero)
    (w mw : Nat) (signed : Bool) (ma mb : Mode) (av k : Nat)
    (hw : w ∈ supportedIntegerBits) (hmw : mw ∈ supportedMagnitudeBits) (hk : k < 2 ^ mw)
    (r : CInt) (cnt : Count) (sat : Bool)
    (hrun : shr_checked wc w signed mw ⟨ma, av⟩ ⟨mb, k⟩ = .ok (r, cnt, sat)) :
    shr_checked_count wc w mw (ma, mb) = .ok cnt
    ∧ shr_checked_output_mode (ma, mb) = r.mode
    ∧ shr_checked_count wc w mw (Mode.Constant, Mode.Constant) = .ok ⟨w, 0, 0, 0⟩
    ∧ (ma ≠ Mode.Constant → shr_checked_count wc w mw (ma, Mode.Constant) = .ok ⟨0, 0, 0, 0⟩) := by
  obtain ⟨ht3, ht7, htmw, hidx, hpow, hw8, hmw32, hmw8⟩ := width_facts w mw hw hmw
  have hk32 : k < 2 ^ 32 := lt_of_lt_of_le hk (Nat.pow_le_pow_right (by omega) hmw32)
  by_cases hcc : ma = Mode.Constant ∧ mb = Mode.Constant
  · obtain ⟨rfl, rfl⟩ := hcc
    rw [shr_checked_cc wc w signed mw av k hk32] at hrun
    cases hcs : checked_shr w signed av k with
    | none =>
      rw [hcs] at hrun
      exact absurd hrun (by simp)
    | some v =>
      rw [hcs] at hrun
      simp only [Except.ok.injEq, Prod.mk.injEq] at hrun
      obtain ⟨hr, hcnt, hsat⟩ := hrun
      subst hr; subst hcnt
      exact ⟨rfl, rfl, rfl, fun hma => absurd rfl hma⟩
  · by_cases hmb : mb = Mode.Constant
    · subst hmb
      have hma : ma ≠ Mode.Constant := fun h => hcc ⟨h, rfl⟩
      rw [shr_checked_rhs_const wc w mw signed ma av k hma hw hmw hk] at hrun
      by_cases hwk : w ≤ k
      · rw [if_pos hwk] at hrun
        exact absurd hrun (by simp)
      · rw [if_neg hwk] at hrun
        simp only [Except.ok.injEq, Prod.mk.injEq] at hrun
        obtain ⟨hr, hcnt, hsat⟩ := hrun
        subst hr; subst hcnt
        refine ⟨?_, ?_, rfl, fun _ => ?_⟩
        · cases ma with
          | Constant => exact absurd rfl hma
          | Public => simp [shr_checked_count, hwc, Count.zero, Count.add_mk]
          | Private => simp [shr_checked_count, hwc, Count.zero, Count.add_mk]
        · cases ma <;> rfl
        · cases ma with
          | Constant => exact absurd rfl hma
          | Public => rfl
          | Private => rfl
    · rw [shr_checked_rhs_nonconst wc w mw signed ma mb av k hmb hw hmw hk] at hrun
      simp only [Except.ok.injEq, Prod.mk.injEq] at hrun
      obtain ⟨hr, hcnt, hsat⟩ := hrun
      subst hr; subst hcnt
      have harith : (⟨0, 0, mw - trailingZeros w - 1, mw - trailingZeros w - 1⟩ : Count) +
            ⟨0, 0, 0, 1⟩ + wc ma mb =
          wc ma mb + ⟨0, 0, mw - 4 - (trailingZeros w - 3), mw - 3 - (trailingZeros w - 3)⟩ := by
        cases hq : wc ma mb with
        | mk c1 c2 c3 c4 =>
          simp only [Count.add_mk, Count.mk.injEq]
          omega
      refine ⟨?_, ?_, rfl, fun hma => ?_⟩
      · cases mb with
        | Constant => exact absurd rfl hmb
        | Public =>
          cases ma <;> simp only [shr_checked_count, hidx] <;> rw [harith]
        | Private =>
          cases ma <;> simp only [shr_checked_count, hidx] <;> rw [harith]
      · cases mb with
        | Constant => exact absurd rfl hmb
        | Public => cases ma <;> rfl
        | Private => cases ma <;> rfl
      · cases ma with
        | Constant => exact absurd rfl hma
        | Public => rfl
        | Private => rfl

/-- Witness for C4 at the Constant/Constant case of the spec's example. -/
theorem metrics_count_exact_witness :
    shr_checked_count (fun _ _ => Count.zero) 8 8 (Mode.Constant, Mode.Constant) =
        .ok ⟨8, 0, 0, 0⟩
    ∧ shr_checked_output_mode (Mode.Constant, Mode.Constant) =
        (⟨Mode.Constant, 254⟩ : CInt).mode
    ∧ shr_checked_count (fun _ _ => Count.zero) 8 8 (Mode.Constant, Mode.Constant) =
        .ok ⟨8, 0, 0, 0⟩
    ∧ (Mode.Constant ≠ Mode.Constant →
        shr_checked_count (fun _ _ => Count.zero) 8 8 (Mode.Constant, Mode.Constant) =
          .ok ⟨0, 0, 0, 0⟩) :=
  metrics_count_exact (fun _ _ => Count.zero) (fun _ => rfl) 8 8 true Mode.Constant Mode.Constant
    251 2 (by decide) (by decide) (by decide) ⟨Mode.Constant, 254⟩ ⟨8, 0, 0, 0⟩ true (by decide)

/-- C8 counterexample: at the spec's own example (width-8 base, 16-bit Constant
shift amount 9, both Constant) the build halts with the fixed message
"Constant shifted by constant exceeds the allowed bitwidth.", which contains no
digit at all, hence does not name the relevant bit-width 8 (nor 16). -/
theorem halt_message_no_numeric_width_counterexample :
    shr_checked (fun _ _ => Count.zero) 8 true 16 ⟨Mode.Constant, 251⟩ ⟨Mode.Constant, 9⟩ =
      .error "Constant shifted by constant exceeds the allowed bitwidth."
    ∧ ("Constant shifted by constant exceeds the allowed bitwidth.".data.any Char.isDigit)
      = false := by
  constructor
  · decide
  · decide

/-- C8 (amended): every build-time halt raised by checked shift-right carries
one of two fixed messages that name the operation (a shift) and refer to the
bit-width limit generically, without naming the numeric bit-width (the messages
contain no digits). -/
theorem halt_messages_generic (wc : Mode → Mode → Count) (w mw : Nat) (signed : Bool)
    (ma mb : Mode) (av k : Nat) (msg : String)
    (hmw : mw ∈ supportedMagnitudeBits) (hk : k < 2 ^ mw)
    (herr : shr_checked wc w signed mw ⟨ma, av⟩ ⟨mb, k⟩ = .error msg) :
    (msg = "Constant shifted by constant exceeds the allowed bitwidth."
      ∨ msg = "Integer shifted by constant exceeds the allowed bitwidth.")
    ∧ msg.data.any Char.isDigit = false := by
  have hk32 : k < 2 ^ 32 :=
    lt_of_lt_of_le hk (Nat.pow_le_pow_right (by omega) (mem_magnitude_le_32 mw hmw))
  by_cases hcc : ma = Mode.Constant ∧ mb = Mode.Constant
  · obtain ⟨rfl, rfl⟩ := hcc
    rw [shr_checked_cc wc w signed mw av k hk32] at herr
    cases hcs : checked_shr w signed av k with
    | some v =>
      rw [hcs] at herr
      exact absurd herr (by simp)
    | none =>
      rw [hcs] at herr
      simp only [Except.error.injEq] at herr
      subst herr
      exact ⟨Or.inl rfl, by decide⟩
  · rw [shr_checked_nc wc w signed mw ma mb av k hcc] at herr
    by_cases hcond : ((upperBitsOr w mw ⟨mb, k⟩).is_constant
        && (upperBitsOr w mw ⟨mb, k⟩).val) = true
    · rw [if_pos hcond] at herr
      simp only [Except.error.injEq] at herr
      subst herr
      exact ⟨Or.inr rfl, by decide⟩
    · rw [if_neg hcond] at herr
      exact absurd herr (by simp)

/-- Witness for the amended C8 at the spec's example input. -/
theorem halt_messages_generic_witness :
    (("Constant shifted by constant exceeds the allowed bitwidth."
        = "Constant shifted by constant exceeds the allowed bitwidth."
      ∨ "Constant shifted by constant exceeds the allowed bitwidth."
        = "Integer shifted by constant exceeds the allowed bitwidth.")
    ∧ "Constant shifted by constant exceeds the allowed bitwidth.".data.any Char.isDigit
      = false) :=
  halt_messages_generic (fun _ _ => Count.zero) 8 16 true Mode.Constant Mode.Constant 251 9
    "Constant shifted by constant exceeds the allowed bitwidth." (by decide) (by decide)
    (by decide)
